import Mathlib

/-!
Shallow embedding of the claiming-factory Solana program
(`programs/claiming-factory/src/lib.rs`) and verification of its
specification.

Modelling conventions:
* Rust `u64` values are `Nat`, with explicit `< 2 ^ 64` bounds wherever the
  source uses checked arithmetic (`checked_add`, `checked_mul`, ...).
* Rust `i64` values are `Int`; the casts `as u64` / `as i64` are modelled by
  `u64ofI64` / `i64ofU64` (two's-complement reinterpretation).
* `rust_decimal::Decimal` values are modelled as exact unnormalised fractions
  (`Frac`).  Every `Decimal` computation performed by the program divides a
  sub-`2^64` integer by `10 ^ 11` and by a period's `times`, then multiplies by
  integers; these stay well inside `Decimal`'s 96-bit/28-digit range, where
  `Decimal` arithmetic is exact, so exact fractions are a faithful model.
* Fallible code returns `Except Abort`; `Abort` distinguishes a returned
  `ErrorCode` from a Rust panic (out-of-bounds indexing, `Vec::remove` out of
  range, `Decimal` division by zero, `Option::unwrap` on `None`).
* keccak-256 (consumed from `solana_program`, not part of this repository) is
  an abstract parameter `H : List Nat → List Nat` on 8-bit byte lists.
-/

namespace Claiming

/-- Error codes of the program (the `ErrorCode` enum in `lib.rs`). -/
inductive ErrorCode where
  | MaxAdmins
  | AdminNotFound
  | InvalidAmountTransferred
  | InvalidProof
  | AlreadyClaimed
  | NotOwner
  | NotAdminOrOwner
  | ChangingPauseValueToTheSame
  | Paused
  | EmptySchedule
  | InvalidScheduleOrder
  | PercentageDoesntCoverAllTokens
  | EmptyPeriod
  | IntegerOverflow
  | VestingAlreadyStarted
  | NothingToClaim
  | InvalidIntervalDuration
  | WrongClaimer
  | NotAllowedToChangeWallet
  | ScheduleStopped
  | DeadlineExpiredForRefund
  | InvlaidAmount
  | InvalidSchedule
  | PeriodDurationIncreased
  | TokenPercentageIncreased
  | RefundRequested
  | RefundDeadlineIsOver
  deriving DecidableEq

/-- Outcome of a failing Rust execution path: either an `ErrorCode` returned
through `Result`, or a panic (an abort that is not an `ErrorCode`). -/
inductive Abort where
  | code (e : ErrorCode)
  | panic
  deriving DecidableEq

instance instDecEqExcept {ε α : Type} [DecidableEq ε] [DecidableEq α] :
    DecidableEq (Except ε α) := fun a b =>
  match a, b with
  | .error e, .error f =>
    if h : e = f then isTrue (by rw [h]) else isFalse (fun hh => h (Except.error.inj hh))
  | .error _, .ok _ => isFalse (fun hh => Except.noConfusion hh)
  | .ok _, .error _ => isFalse (fun hh => Except.noConfusion hh)
  | .ok x, .ok y =>
    if h : x = y then isTrue (by rw [h]) else isFalse (fun hh => h (Except.ok.inj hh))

/-- One more than `u64::MAX`: a checked `u64` operation succeeds iff its exact
result is `< U64LIM`. -/
def U64LIM : ℕ := 2 ^ 64

/-- `REFUND_TIME_LIMIT` from `lib.rs` (1 hour, in seconds). -/
def REFUND_TIME_LIMIT : ℤ := 3600

/-- Rust `as u64` applied to an `i64` (two's-complement wrap). -/
def u64ofI64 (x : ℤ) : ℕ := (x % (2 ^ 64 : ℤ)).toNat

/-- Rust `as i64` applied to a `u64` (two's-complement reinterpretation). -/
def i64ofU64 (n : ℕ) : ℤ :=
  if n % U64LIM < 2 ^ 63 then (n % U64LIM : ℤ) else (n % U64LIM : ℤ) - 2 ^ 64

/-- Exact-fraction model of a `rust_decimal::Decimal` value: an unnormalised
numerator/denominator pair.  All denominators produced by the program are
positive products of `10 ^ 11` and period `times` values. -/
structure Frac where
  num : ℤ
  den : ℕ
  deriving DecidableEq

/-- The rational number a `Frac` denotes. -/
def Frac.toQ (x : Frac) : ℚ := (x.num : ℚ) / (x.den : ℚ)

/-- `Decimal::ZERO`. -/
def Frac.zero : Frac := ⟨0, 1⟩

/-- `Decimal::from_u64(n).unwrap()` (always succeeds for `u64` inputs). -/
def Frac.ofNat (n : ℕ) : Frac := ⟨n, 1⟩

/-- `Decimal` addition. -/
def Frac.add (x y : Frac) : Frac := ⟨x.num * y.den + y.num * x.den, x.den * y.den⟩

/-- `Decimal` multiplication. -/
def Frac.mul (x y : Frac) : Frac := ⟨x.num * y.num, x.den * y.den⟩

/-- `Decimal` division by `Decimal::from_u64(n)` (division by zero is guarded
by the callers, which model the rust_decimal panic explicitly). -/
def Frac.divNat (x : Frac) (n : ℕ) : Frac := ⟨x.num, x.den * n⟩

/-- `Decimal` multiplication by `Decimal::from_u64(n)`. -/
def Frac.mulNat (x : Frac) (n : ℕ) : Frac := ⟨x.num * n, x.den⟩

/-- `Decimal::ceil`, as an integer (`⌈num / den⌉`; the denominators in use are
positive). -/
def Frac.ceil (x : Frac) : ℤ := -((-x.num) / (x.den : ℤ))

/-- `.ceil().to_u64().unwrap()` on a `Decimal`: panics when the ceiling is
negative or does not fit in a `u64`. -/
def ceilToU64 (x : Frac) : Except Abort ℕ :=
  if 0 ≤ x.ceil ∧ x.ceil < (U64LIM : ℤ) then .ok x.ceil.toNat else .error .panic

/-- A vesting period (`Period` in `lib.rs`). -/
structure Period where
  token_percentage : ℕ
  start_ts : ℕ
  interval_sec : ℕ
  times : ℕ
  airdropped : Bool
  deriving DecidableEq

/-- The per-recipient entitlement ledger (`UserDetails` in `lib.rs`). -/
structure UserDetails where
  last_claimed_at_ts : ℕ
  claimed_amount : ℕ
  deriving DecidableEq

/-- `Period::end_ts`: `times.checked_mul(interval_sec)?.checked_add(start_ts)?`. -/
def Period.end_ts (p : Period) : Except Abort ℕ :=
  if p.times * p.interval_sec < U64LIM then
    if p.times * p.interval_sec + p.start_ts < U64LIM then
      .ok (p.times * p.interval_sec + p.start_ts)
    else .error (.code .IntegerOverflow)
  else .error (.code .IntegerOverflow)

/-- `Period::token_percentage_as_decimal`:
`Decimal::new(token_percentage as i64, DECIMALS + 2)`, i.e. the fraction
`(token_percentage as i64) / 10 ^ 11`. -/
def Period.token_percentage_as_decimal (p : Period) : Frac :=
  ⟨i64ofU64 p.token_percentage, 10 ^ 11⟩

/-- The loop body of `Vesting::validate`, carrying the running `last_start_ts`
and the checked `total_percentage` accumulator; returns the final total. -/
def validateGo : ℕ → ℕ → List Period → Except Abort ℕ
  | _, total, [] => .ok total
  | last, total, p :: rest =>
    if p.times = 0 then .error (.code .EmptyPeriod)
    else if p.interval_sec = 0 then .error (.code .InvalidIntervalDuration)
    else if ¬ last < p.start_ts then .error (.code .InvalidScheduleOrder)
    else
      match p.end_ts with
      | .error e => .error e
      | .ok pend =>
        if total + p.token_percentage < U64LIM then
          validateGo pend (total + p.token_percentage) rest
        else .error (.code .IntegerOverflow)

/-- `Vesting::validate`. -/
def validate (s : List Period) : Except Abort Unit :=
  if s.isEmpty then .error (.code .EmptySchedule)
  else
    match validateGo 0 0 s with
    | .error e => .error e
    | .ok total =>
      if 99 * 10 ^ 9 ≤ total ∧ total ≤ 100 * 10 ^ 9 then .ok ()
      else .error (.code .PercentageDoesntCoverAllTokens)

/-- `Vesting::has_started`: the first period's `start_ts` has been reached
(`false` on an empty schedule). -/
def has_started (s : List Period) (now : ℕ) : Bool :=
  match s with
  | [] => false
  | p :: _ => decide (p.start_ts ≤ now)

/-- A schedule change (the `Change` enum in `lib.rs`). -/
inductive Change where
  | update (index : ℕ) (period : Period)
  | remove (index : ℕ)
  | push (period : Period)
  deriving DecidableEq

/-- `Vesting::apply_change`: in-place list mutation with no validation.
`Update` uses `self.schedule[index] = period` and `Remove` uses
`Vec::remove(index)`, both of which panic when `index` is out of bounds. -/
def apply_change (s : List Period) : Change → Except Abort (List Period)
  | .update index period =>
    if index < s.length then .ok (s.set index period) else .error .panic
  | .remove index =>
    if index < s.length then .ok (s.eraseIdx index) else .error .panic
  | .push period => .ok (s ++ [period])

/-- The change-application loop shared by both schedule-update entry points. -/
def applyChanges : List Period → List Change → Except Abort (List Period)
  | s, [] => .ok s
  | s, c :: cs =>
    match apply_change s c with
    | .error e => .error e
    | .ok s' => applyChanges s' cs

/-- The `update_schedule` entry point: rejects once vesting has started,
applies the whole change list, then re-validates. -/
def update_schedule (s : List Period) (now : ℕ) (changes : List Change) :
    Except Abort (List Period) :=
  if has_started s now then .error (.code .VestingAlreadyStarted)
  else
    match applyChanges s changes with
    | .error e => .error e
    | .ok s' =>
      match validate s' with
      | .error e => .error e
      | .ok _ => .ok s'

/-- The `update_schedule2` entry point: applies the change list with no
`has_started` guard and no re-validation. -/
def update_schedule2 (s : List Period) (changes : List Change) :
    Except Abort (List Period) :=
  applyChanges s changes

/-- `Vesting::has_stopped`: every period whose end has not passed is marked
`airdropped`. -/
def has_stopped : List Period → ℕ → Except Abort Bool
  | [], _ => .ok true
  | p :: rest, now =>
    match p.end_ts with
    | .error e => .error e
    | .ok pend =>
      if pend < now then has_stopped rest now
      else if p.airdropped then has_stopped rest now
      else .ok false

/-- `Vesting::bps_available_to_claim`: walks the schedule in order and returns
`(claimable fraction, airdropped fraction)`.  Per period: stop at a period not
yet started; skip a period that ends at or before `last_claimed_at_ts`; add an
airdropped period's whole percentage to the second component; otherwise align
`last_claimed_at_ts` down to the period's interval grid
(`checked_rem` fails with `IntegerOverflow` when `interval_sec = 0`), compute
`intervals_passed = min((now - max(start_ts, aligned)) / interval_sec, times)`
(the `checked_sub` fails with `IntegerOverflow` when `now < max(...)`), and add
`token_percentage / times * intervals_passed`; the `Decimal` division panics
when `times = 0`. -/
def bps_available_to_claim (now : ℕ) (ud : UserDetails) :
    List Period → Except Abort (Frac × Frac)
  | [] => .ok (Frac.zero, Frac.zero)
  | p :: rest =>
    if now < p.start_ts then .ok (Frac.zero, Frac.zero)
    else
      match p.end_ts with
      | .error e => .error e
      | .ok pend =>
        if pend ≤ ud.last_claimed_at_ts then bps_available_to_claim now ud rest
        else if p.airdropped then
          match bps_available_to_claim now ud rest with
          | .error e => .error e
          | .ok (c, a) => .ok (c, a.add p.token_percentage_as_decimal)
        else if p.interval_sec = 0 then .error (.code .IntegerOverflow)
        else
          if now < max p.start_ts
              (ud.last_claimed_at_ts - ud.last_claimed_at_ts % p.interval_sec) then
            .error (.code .IntegerOverflow)
          else if p.times = 0 then .error .panic
          else
            match bps_available_to_claim now ud rest with
            | .error e => .error e
            | .ok (c, a) =>
              .ok
                (c.add
                  ((p.token_percentage_as_decimal.divNat p.times).mulNat
                    (min
                      ((now - max p.start_ts
                        (ud.last_claimed_at_ts -
                          ud.last_claimed_at_ts % p.interval_sec)) /
                        p.interval_sec)
                      p.times)),
                  a)

/-- The loop body of `stop_vesting2` (Policy B early stop), carrying the
`seen_current_period` flag.  Past periods are kept as they are, strictly
future periods are marked `airdropped`, and the (at most one) current period
is rescaled to a single interval ending at `now`, its percentage scaled by
`new_duration / old_duration` and truncated to `u64` by `Decimal::to_u64`. -/
def stopGo (now : ℕ) : Bool → List Period → Except Abort (List Period)
  | _, [] => .ok []
  | seen, p :: rest =>
    match p.end_ts with
    | .error e => .error e
    | .ok pend =>
      if pend < now then
        match stopGo now seen rest with
        | .error e => .error e
        | .ok rest' => .ok (p :: rest')
      else if now < p.start_ts then
        match stopGo now seen rest with
        | .error e => .error e
        | .ok rest' => .ok ({ p with airdropped := true } :: rest')
      else if seen then .error (.code .InvalidSchedule)
      else
        -- `period_end_ts.checked_sub(start_ts).ok_or(EmptyPeriod)`; the new
        -- interval is `now.checked_sub(start_ts)` (here `start_ts ≤ now`),
        -- the old duration `pend - start_ts`, and the rescaled percentage is
        -- `Decimal::from_u64(tp) * (new / old)` truncated to `u64` by
        -- `to_u64` (failing with `IntegerOverflow` when it does not fit)
        if pend < p.start_ts then .error (.code .EmptyPeriod)
        else if ¬ now - p.start_ts ≤ pend - p.start_ts then
          .error (.code .PeriodDurationIncreased)
        else if pend - p.start_ts = 0 then .error .panic
        else if ¬ p.token_percentage * (now - p.start_ts) / (pend - p.start_ts) <
            U64LIM then
          .error (.code .IntegerOverflow)
        else if ¬ p.token_percentage * (now - p.start_ts) / (pend - p.start_ts) ≤
            p.token_percentage then
          .error (.code .TokenPercentageIncreased)
        else
          match stopGo now true rest with
          | .error e => .error e
          | .ok rest' =>
            .ok
              ({ token_percentage :=
                   p.token_percentage * (now - p.start_ts) / (pend - p.start_ts),
                 start_ts := p.start_ts, interval_sec := now - p.start_ts,
                 times := 1, airdropped := p.airdropped } :: rest')

/-- The `stop_vesting2` entry point (Policy B early stop). -/
def stop_vesting2 (s : List Period) (now : ℕ) : Except Abort (List Period) :=
  stopGo now false s

/-- A `u64` as its 8 big-endian bytes (`u64::to_be_bytes`). -/
def u64BeBytes (n : ℕ) : List ℕ :=
  [n / 2 ^ 56 % 256, n / 2 ^ 48 % 256, n / 2 ^ 40 % 256, n / 2 ^ 32 % 256,
   n / 2 ^ 24 % 256, n / 2 ^ 16 % 256, n / 2 ^ 8 % 256, n % 256]

/-- Lexicographic `<=` on equal-length byte arrays (Rust's derived `Ord` on
`[u8; 32]`). -/
def bytesLe : List ℕ → List ℕ → Bool
  | [], _ => true
  | _ :: _, [] => false
  | a :: as, b :: bs => if a < b then true else if b < a then false else bytesLe as bs

/-- The loop of `check_proof`: fold the sibling path over the running hash,
hashing the lexicographically smaller operand first. -/
def proofFold (H : List ℕ → List ℕ) (leaf : List ℕ) (proof : List (List ℕ)) :
    List ℕ :=
  proof.foldl
    (fun computed el => if bytesLe computed el then H (computed ++ el) else H (el ++ computed))
    leaf

/-- `check_proof`: leaf = `H(wallet_bytes ‖ amount_be_bytes)`, fold the path,
succeed iff the result equals the root. -/
def check_proof (H : List ℕ → List ℕ) (original_wallet : List ℕ) (amount : ℕ)
    (root : List ℕ) (proof : List (List ℕ)) : Except Abort Unit :=
  if proofFold H (H (original_wallet ++ u64BeBytes amount)) proof = root then .ok ()
  else .error (.code .InvalidProof)

/-- The Distribution Record fields read by `claim`
(`MerkleDistributor` in `lib.rs`). -/
structure MerkleDistributor where
  merkle_root : List ℕ
  paused : Bool
  refund_deadline_ts : Option ℕ
  vesting : List Period
  deriving DecidableEq

/-- The arguments of `claim` (`ClaimArgs` in `lib.rs`). -/
structure ClaimArgs where
  amount : ℕ
  merkle_proof : List (List ℕ)
  original_wallet : List ℕ
  deriving DecidableEq

/-- The state committed by a successful `claim`: the transferred amount, the
lump-sum (airdropped) amount added to the ledger, the new ledger record, the
post-state of the refund-request account's `active` flag (`none` when the
account is not initialised; the stored flag is never modified by `claim`, see
`claimAfterProof`), and whether the `RefundClaimRequest` account was closed
(Anchor's `close = user` on success). -/
structure ClaimResult where
  amount : ℕ
  amount_to_add : ℕ
  user_details : UserDetails
  refund_request_active : Option Bool
  refund_claim_request_closed : Bool
  deriving DecidableEq

/-- The tail of `claim` from the unlock computation on (everything after
`check_proof` succeeded): compute the claimable and airdropped fractions,
ceil both amounts in the recipient's favor, reject zero claims
(`ScheduleStopped` when the schedule has stopped, `NothingToClaim` otherwise),
transfer, and update the ledger with two checked additions.  `rr` is the
stored refund-request account state; it is returned unchanged: the
`refund_request.active = false` write in the source mutates a local
`Account::try_from` copy of the raw `refund_request` `AccountInfo` that is
moved into the handler and dropped without ever being serialized back, so the
stored account's `active` flag is not modified by a successful claim. -/
def claimAfterProof (vesting : List Period) (ud : UserDetails) (now : ℕ)
    (amountArg : ℕ) (rr : Option Bool) :
    Except Abort ClaimResult :=
  match bps_available_to_claim now ud vesting with
  | .error e => .error e
  | .ok (bpsToClaim, bpsToAdd) =>
    match ceilToU64 ((Frac.ofNat amountArg).mul bpsToClaim) with
    | .error e => .error e
    | .ok amount =>
      match ceilToU64 ((Frac.ofNat amountArg).mul bpsToAdd) with
      | .error e => .error e
      | .ok amountToAdd =>
        if amount = 0 then
          match has_stopped vesting now with
          | .error e => .error e
          | .ok true => .error (.code .ScheduleStopped)
          | .ok false => .error (.code .NothingToClaim)
        else
          if ud.claimed_amount + amount < U64LIM then
            if ud.claimed_amount + amount + amountToAdd < U64LIM then
              .ok
                { amount := amount
                  amount_to_add := amountToAdd
                  user_details :=
                    { last_claimed_at_ts := now
                      claimed_amount := ud.claimed_amount + amount + amountToAdd }
                  refund_request_active := rr
                  refund_claim_request_closed := true }
            else .error (.code .IntegerOverflow)
          else .error (.code .IntegerOverflow)

/-- The refund-request deadline gate of `claim`: the stored `RefundRequest`
account is loaded only when a refund deadline is configured; a missed deadline
with the request still active rejects the claim with `RefundRequested`. -/
def refundGate (ddlOpt : Option ℕ) (rr : Option Bool) (now : ℕ) :
    Except Abort (Option Bool) :=
  match ddlOpt with
  | none => .ok none
  | some ddl =>
    match rr with
    | none => .ok none
    | some active =>
      if ddl < now ∧ active then .error (.code .RefundRequested)
      else .ok (some active)

/-- The `claim` entry point.  `rcrTimeStamp` is the `time_stamp` of the
`RefundClaimRequest` account (which Anchor requires to exist), `rr` the state
of the (possibly uninitialised) `RefundRequest` account, `ts` the clock's
`unix_timestamp`.  Gates, in source order: the refund-claim-request window,
`paused`, schedule re-validation, `claimed_amount < args.amount`, and the
refund-request deadline check (only when a refund deadline is configured). -/
def claim (H : List ℕ → List ℕ) (dist : MerkleDistributor) (ud : UserDetails)
    (rcrTimeStamp : ℤ) (rr : Option Bool) (ts : ℤ) (args : ClaimArgs) :
    Except Abort ClaimResult :=
  if rcrTimeStamp + REFUND_TIME_LIMIT < i64ofU64 (u64ofI64 ts) then
    .error (.code .DeadlineExpiredForRefund)
  else if dist.paused then .error (.code .Paused)
  else
    match validate dist.vesting with
    | .error e => .error e
    | .ok _ =>
      if ¬ ud.claimed_amount < args.amount then .error (.code .AlreadyClaimed)
      else
        match refundGate dist.refund_deadline_ts rr (u64ofI64 ts) with
        | .error e => .error e
        | .ok _ =>
          match check_proof H args.original_wallet args.amount dist.merkle_root
              args.merkle_proof with
          | .error e => .error e
          | .ok _ => claimAfterProof dist.vesting ud (u64ofI64 ts) args.amount rr

/-- `change_wallet`: the ledger record is copied verbatim to the new wallet's
record (the old record is then closed). -/
def change_wallet (ud : UserDetails) : UserDetails :=
  { last_claimed_at_ts := ud.last_claimed_at_ts, claimed_amount := ud.claimed_amount }

/-! ### Spec-side definitions

These re-state, in the specification's own words, the algorithms the claims
compare the code against. -/

/-- Spec §4.1: hash the lexicographically smaller of the two operands first
(`computed ≤ sibling ? H(computed‖sibling) : H(sibling‖computed)`). -/
def specSortedHash (H : List ℕ → List ℕ) (x y : List ℕ) : List ℕ :=
  if bytesLe x y then H (x ++ y) else H (y ++ x)

/-- Spec §4.1: fold the sibling path left to right over the running hash. -/
def specFoldPath (H : List ℕ → List ℕ) : List ℕ → List (List ℕ) → List ℕ
  | h, [] => h
  | h, sib :: rest => specFoldPath H (specSortedHash H h sib) rest

/-- Spec §4.1 verifier: leaf = `H(identity_bytes ‖ amount_as_8_big_endian)`,
fold the path with the sorted-pair convention, succeed iff the final hash
equals the root. -/
def merkleVerifySpec (H : List ℕ → List ℕ) (identity : List ℕ) (amount : ℕ)
    (root : List ℕ) (path : List (List ℕ)) : Bool :=
  decide (specFoldPath H (H (identity ++ u64BeBytes amount)) path = root)

/-- Spec §3 invariants along the period list: `times > 0`, `interval_sec > 0`,
each `start_ts` strictly after the previous period's computed end, and the end
`start_ts + times * interval_sec` fits in a `u64`. -/
def chainOk : ℕ → List Period → Prop
  | _, [] => True
  | prevEnd, p :: rest =>
    0 < p.times ∧ 0 < p.interval_sec ∧ prevEnd < p.start_ts ∧
      p.times * p.interval_sec + p.start_ts < U64LIM ∧
      chainOk (p.times * p.interval_sec + p.start_ts) rest

/-- Sum of `token_percentage` over the schedule (exact, in `Nat`). -/
def totalPct (s : List Period) : ℕ := (s.map Period.token_percentage).sum

/-- Spec §3: a valid schedule is non-empty, satisfies the chain invariants
starting from a previous end of `0`, and has a total percentage within
`[99 * 10^9, 100 * 10^9]`. -/
def validSchedule (s : List Period) : Prop :=
  s ≠ [] ∧ chainOk 0 s ∧ 99 * 10 ^ 9 ≤ totalPct s ∧ totalPct s ≤ 100 * 10 ^ 9

/-! ### Shared concrete data for scenario theorems -/

/-- The spec §8 scenario schedule: one period
`{percentage = 100·10^9, start_ts = 1000, interval_sec = 100, times = 10}`. -/
def schedC1 : List Period := [⟨100 * 10 ^ 9, 1000, 100, 10, false⟩]

/-- Degenerate hash used to instantiate the abstract keccak parameter in
closed scenario theorems. -/
def Hzero : List ℕ → List ℕ := fun _ => List.replicate 32 0

/-- A 32-byte zero root matching `Hzero`. -/
def rootZ : List ℕ := List.replicate 32 0

/-- Claim arguments for the §8 scenario: entitlement 1000, empty proof. -/
def argsC1 : ClaimArgs := ⟨1000, [], rootZ⟩

/-- A two-period schedule whose second period is airdropped: total percentage
`99·10^9` (valid), first period fully elapsed at `now = 2050`, second period
(airdropped) covering `now`. -/
def schedStop : List Period :=
  [⟨50 * 10 ^ 9, 1000, 100, 1, false⟩, ⟨49 * 10 ^ 9, 2000, 100, 1, true⟩]

/-- A period is well-formed for the unlock computation:
`times > 0`, `interval_sec > 0`, its end fits in a `u64`, and its percentage
is below `2^63` (so the `as i64` cast in `token_percentage_as_decimal` is the
identity).  `validate` guarantees all four. -/
def goodPeriod (p : Period) : Prop :=
  0 < p.times ∧ 0 < p.interval_sec ∧
    p.times * p.interval_sec + p.start_ts < U64LIM ∧
    p.token_percentage < 2 ^ 63

/-- The number of whole intervals of a period paid out by a claim at `now`
with ledger timestamp `last` (spec §4.2): `last` aligned down to the interval
grid, elapsed seconds divided by the interval length, capped at `times`. -/
def intervalsPassed (p : Period) (now last : ℕ) : ℕ :=
  min ((now - max p.start_ts (last - last % p.interval_sec)) / p.interval_sec)
    p.times

/-- Spec §4.2's claimable unlock fraction, as an exact rational: walk the
schedule in order, stop at a period not yet started, skip periods ending at or
before `last` and airdropped periods, and add
`token_percentage / times × intervals_passed` (percentage at scale `10^11`)
for the rest. -/
def claimQ : List Period → ℕ → ℕ → ℚ
  | [], _, _ => 0
  | p :: rest, now, last =>
    if now < p.start_ts then 0
    else if p.times * p.interval_sec + p.start_ts ≤ last then claimQ rest now last
    else if p.airdropped then claimQ rest now last
    else
      (p.token_percentage : ℚ) / 10 ^ 11 / (p.times : ℚ) *
          (intervalsPassed p now last : ℚ) +
        claimQ rest now last

/-- Spec §4.2's airdropped (lump-sum) fraction, as an exact rational. -/
def addQ : List Period → ℕ → ℕ → ℚ
  | [], _, _ => 0
  | p :: rest, now, last =>
    if now < p.start_ts then 0
    else if p.times * p.interval_sec + p.start_ts ≤ last then addQ rest now last
    else if p.airdropped then (p.token_percentage : ℚ) / 10 ^ 11 + addQ rest now last
    else addQ rest now last

/-- A period is "current" at `now` in the sense `stop_vesting2` uses:
its end has not passed (`now ≤ end`) and it has started (`start_ts ≤ now`). -/
def isCurB (now : ℕ) (p : Period) : Bool :=
  decide (p.start_ts ≤ now) && decide (now ≤ p.times * p.interval_sec + p.start_ts)

/-- The per-period effect of a successful Policy B early stop: a fully past
period is unchanged; a period not yet started is marked `airdropped`; the
current period keeps its start and airdropped flag, is rescaled to a single
interval of length `now - start_ts`, its new duration bounded by the old one
and its new percentage bounded by the old one. -/
def stopRel (now : ℕ) (p q : Period) : Prop :=
  ∃ e, p.end_ts = .ok e ∧
    ((e < now ∧ q = p) ∨
     (¬ e < now ∧ now < p.start_ts ∧ q = { p with airdropped := true }) ∨
     (¬ e < now ∧ ¬ now < p.start_ts ∧
       q.times = 1 ∧ q.interval_sec = now - p.start_ts ∧
       now - p.start_ts ≤ e - p.start_ts ∧
       q.token_percentage ≤ p.token_percentage ∧
       q.start_ts = p.start_ts ∧ q.airdropped = p.airdropped))

/-- One period that ends exactly at `now = 2000` (so it is not current in the
strict sense `start_ts ≤ now < end`). -/
def schedEndEq : List Period := [⟨100 * 10 ^ 9, 1000, 500, 2, false⟩]

/-- A zero-duration period ending exactly at `now = 10` followed by two
periods that are current in the strict sense `start_ts ≤ now < end`. -/
def schedTwoCur : List Period :=
  [⟨0, 10, 0, 1, false⟩, ⟨100 * 10 ^ 9, 10, 5, 2, false⟩,
   ⟨100 * 10 ^ 9, 9, 5, 2, false⟩]

/-- Two well-formed periods both current at `now = 12`. -/
def schedTwoCurOk : List Period :=
  [⟨10, 10, 5, 2, false⟩, ⟨10, 12, 5, 2, false⟩]

/-! ### Basic lemmas about the embedding -/

theorem end_ts_ok_iff {p : Period} {v : ℕ} :
    p.end_ts = .ok v ↔
      p.times * p.interval_sec + p.start_ts < U64LIM ∧
        v = p.times * p.interval_sec + p.start_ts := by
  unfold Period.end_ts
  split
  · split
    · simp only [Except.ok.injEq]
      constructor
      · rintro rfl
        exact ⟨by assumption, rfl⟩
      · rintro ⟨-, rfl⟩
        rfl
    · constructor
      · rintro ⟨⟩
      · rintro ⟨h, -⟩
        omega
  · constructor
    · rintro ⟨⟩
    · rintro ⟨h, -⟩
      omega

theorem end_ts_error {p : Period} {e : Abort} (h : p.end_ts = .error e) :
    e = .code .IntegerOverflow := by
  unfold Period.end_ts at h
  split at h
  · split at h
    · cases h
    · exact (Except.error.inj h).symm
  · exact (Except.error.inj h).symm

theorem validateGo_ok {s : List Period} :
    ∀ {last total t : ℕ}, validateGo last total s = .ok t →
      chainOk last s ∧ t = total + totalPct s ∧ t < U64LIM ∨
        (s = [] ∧ t = total ∧ chainOk last s) := by
  induction s with
  | nil =>
    intro last total t h
    exact Or.inr ⟨rfl, (Except.ok.inj h).symm, trivial⟩
  | cons p rest ih =>
    intro last total t h
    unfold validateGo at h
    split at h
    · cases h
    · split at h
      · cases h
      · split at h
        · cases h
        · split at h
          · cases h
          · next pend heq =>
            split at h
            · obtain ⟨hfit, rfl⟩ := end_ts_ok_iff.mp heq
              have := ih h
              left
              rcases this with ⟨hc, ht, hlt⟩ | ⟨rfl, ht, -⟩
              · refine ⟨⟨by omega, by omega, by omega, hfit, hc⟩, by
                  simp [totalPct] at ht ⊢
                  omega, hlt⟩
              · refine ⟨⟨by omega, by omega, by omega, hfit, trivial⟩, by
                  simp [totalPct]
                  omega, by omega⟩
            · cases h

theorem validateGo_complete {s : List Period} :
    ∀ {last total : ℕ}, chainOk last s → total + totalPct s < U64LIM →
      validateGo last total s = .ok (total + totalPct s) := by
  induction s with
  | nil =>
    intro last total _ _
    simp [validateGo, totalPct]
  | cons p rest ih =>
    intro last total hc hlt
    obtain ⟨h1, h2, h3, h4, h5⟩ := hc
    have htp : totalPct (p :: rest) = p.token_percentage + totalPct rest := by
      simp [totalPct]
    rw [htp] at hlt
    unfold validateGo
    rw [if_neg (by omega), if_neg (by omega), if_neg (by omega)]
    have hok : p.end_ts = .ok (p.times * p.interval_sec + p.start_ts) :=
      end_ts_ok_iff.mpr ⟨h4, rfl⟩
    simp only [hok]
    rw [if_pos (by omega)]
    rw [ih h5 (by omega)]
    congr 1
    omega

theorem validateGo_error {s : List Period} :
    ∀ {last total : ℕ} {e : Abort}, validateGo last total s = .error e →
      e = .code .EmptyPeriod ∨ e = .code .InvalidIntervalDuration ∨
        e = .code .InvalidScheduleOrder ∨ e = .code .IntegerOverflow := by
  induction s with
  | nil =>
    intro last total e h
    cases h
  | cons p rest ih =>
    intro last total e h
    unfold validateGo at h
    split at h
    · exact Or.inl (Except.error.inj h).symm
    · split at h
      · exact Or.inr (Or.inl (Except.error.inj h).symm)
      · split at h
        · exact Or.inr (Or.inr (Or.inl (Except.error.inj h).symm))
        · split at h
          · next e' heq =>
            cases h
            exact Or.inr (Or.inr (Or.inr (end_ts_error heq)))
          · split at h
            · exact ih h
            · exact Or.inr (Or.inr (Or.inr (Except.error.inj h).symm))

theorem validate_ok_iff {s : List Period} : validate s = .ok () ↔ validSchedule s := by
  unfold validate validSchedule
  constructor
  · intro h
    split at h
    · cases h
    · next hne =>
      split at h
      · cases h
      · next t heq =>
        split at h
        · next hrange =>
          rcases validateGo_ok heq with ⟨hc, ht, -⟩ | ⟨rfl, -, -⟩
          · exact ⟨by simpa using hne, hc, by omega, by omega⟩
          · simp at hne
        · cases h
  · rintro ⟨hne, hc, hlo, hhi⟩
    rw [if_neg (by simpa using hne)]
    have hgo : validateGo 0 0 s = .ok (0 + totalPct s) :=
      validateGo_complete hc (by unfold U64LIM; omega)
    simp only [hgo]
    rw [if_pos (by omega)]

theorem validate_error_cases {s : List Period} {e : Abort}
    (h : validate s = .error e) :
    e = .code .EmptySchedule ∨ e = .code .EmptyPeriod ∨
      e = .code .InvalidIntervalDuration ∨ e = .code .InvalidScheduleOrder ∨
      e = .code .IntegerOverflow ∨ e = .code .PercentageDoesntCoverAllTokens := by
  unfold validate at h
  split at h
  · exact Or.inl (Except.error.inj h).symm
  · split at h
    · next heq =>
      cases h
      rcases validateGo_error heq with h' | h' | h' | h' <;> subst h' <;> tauto
    · split at h
      · cases h
      · right; right; right; right; right
        exact (Except.error.inj h).symm

theorem check_proof_error {H : List ℕ → List ℕ} {w : List ℕ} {n : ℕ}
    {root : List ℕ} {proof : List (List ℕ)} {e : Abort}
    (h : check_proof H w n root proof = .error e) : e = .code .InvalidProof := by
  unfold check_proof at h
  split at h
  · cases h
  · exact (Except.error.inj h).symm

theorem refundGate_error {ddlOpt : Option ℕ} {rr : Option Bool} {now : ℕ}
    {e : Abort} (h : refundGate ddlOpt rr now = .error e) :
    e = .code .RefundRequested := by
  unfold refundGate at h
  split at h
  · cases h
  · split at h
    · cases h
    · split at h
      · exact (Except.error.inj h).symm
      · cases h

theorem ceilToU64_error {x : Frac} {e : Abort} (h : ceilToU64 x = .error e) :
    e = .panic := by
  unfold ceilToU64 at h
  split at h
  · cases h
  · exact (Except.error.inj h).symm

theorem has_stopped_error {s : List Period} :
    ∀ {now : ℕ} {e : Abort}, has_stopped s now = .error e →
      e = .code .IntegerOverflow := by
  induction s with
  | nil => intro now e h; cases h
  | cons p rest ih =>
    intro now e h
    unfold has_stopped at h
    split at h
    · next heq =>
      cases h
      exact end_ts_error heq
    · split at h
      · exact ih h
      · split at h
        · exact ih h
        · cases h

theorem bps_error_cases {now : ℕ} {ud : UserDetails} {s : List Period} :
    ∀ {e : Abort}, bps_available_to_claim now ud s = .error e →
      e = .code .IntegerOverflow ∨ e = .panic := by
  induction s with
  | nil => intro e h; cases h
  | cons p rest ih =>
    intro e h
    unfold bps_available_to_claim at h
    split at h
    · cases h
    · split at h
      · next heq =>
        cases h
        exact Or.inl (end_ts_error heq)
      · split at h
        · exact ih h
        · split at h
          · split at h
            · next heq =>
              cases h
              exact ih heq
            · cases h
          · split at h
            · exact Or.inl (Except.error.inj h).symm
            · split at h
              · exact Or.inl (Except.error.inj h).symm
              · split at h
                · exact Or.inr (Except.error.inj h).symm
                · split at h
                  · next heq =>
                    cases h
                    exact ih heq
                  · cases h

theorem claimAfterProof_ok_inv {vesting : List Period} {ud : UserDetails}
    {now amtArg : ℕ} {rr : Option Bool} {r : ClaimResult}
    (h : claimAfterProof vesting ud now amtArg rr = .ok r) :
    ∃ c a amount amountToAdd,
      bps_available_to_claim now ud vesting = .ok (c, a) ∧
      ceilToU64 ((Frac.ofNat amtArg).mul c) = .ok amount ∧
      ceilToU64 ((Frac.ofNat amtArg).mul a) = .ok amountToAdd ∧
      amount ≠ 0 ∧
      ud.claimed_amount + amount < U64LIM ∧
      ud.claimed_amount + amount + amountToAdd < U64LIM ∧
      r = ⟨amount, amountToAdd,
            ⟨now, ud.claimed_amount + amount + amountToAdd⟩,
            rr, true⟩ := by
  unfold claimAfterProof at h
  split at h
  · cases h
  · rename_i x bpsC bpsA hbps
    split at h
    · cases h
    · rename_i x2 amount hceil
      split at h
      · cases h
      · rename_i x3 amountToAdd hceil2
        split at h
        · split at h <;> cases h
        · rename_i hnz
          split at h
          · split at h
            · exact ⟨bpsC, bpsA, amount, amountToAdd, hbps, hceil, hceil2, hnz,
                by assumption, by assumption, (Except.ok.inj h).symm⟩
            · cases h
          · cases h

theorem claimAfterProof_error_cases {vesting : List Period} {ud : UserDetails}
    {now amtArg : ℕ} {rr : Option Bool} {e : Abort}
    (h : claimAfterProof vesting ud now amtArg rr = .error e) :
    e = .code .IntegerOverflow ∨ e = .panic ∨ e = .code .ScheduleStopped ∨
      e = .code .NothingToClaim := by
  unfold claimAfterProof at h
  split at h
  · next heq =>
    cases h
    rcases bps_error_cases heq with h' | h' <;> subst h' <;> tauto
  · split at h
    · next heq =>
      cases h
      exact Or.inr (Or.inl (ceilToU64_error heq))
    · split at h
      · next heq =>
        cases h
        exact Or.inr (Or.inl (ceilToU64_error heq))
      · split at h
        · split at h
          · next heq =>
            cases h
            exact Or.inl (has_stopped_error heq)
          · exact Or.inr (Or.inr (Or.inl (Except.error.inj h).symm))
          · exact Or.inr (Or.inr (Or.inr (Except.error.inj h).symm))
        · split at h
          · split at h
            · cases h
            · exact Or.inl (Except.error.inj h).symm
          · exact Or.inl (Except.error.inj h).symm

theorem claim_ok_inv {H : List ℕ → List ℕ} {dist : MerkleDistributor}
    {ud : UserDetails} {rts : ℤ} {rr : Option Bool} {ts : ℤ} {args : ClaimArgs}
    {r : ClaimResult} (h : claim H dist ud rts rr ts args = .ok r) :
    ¬ rts + REFUND_TIME_LIMIT < i64ofU64 (u64ofI64 ts) ∧
    dist.paused = false ∧
    validate dist.vesting = .ok () ∧
    ud.claimed_amount < args.amount ∧
    ∃ loaded, refundGate dist.refund_deadline_ts rr (u64ofI64 ts) = .ok loaded ∧
      check_proof H args.original_wallet args.amount dist.merkle_root
        args.merkle_proof = .ok () ∧
      claimAfterProof dist.vesting ud (u64ofI64 ts) args.amount rr = .ok r := by
  unfold claim at h
  split at h
  · cases h
  · next hnd =>
    split at h
    · cases h
    · next hpaused =>
      split at h
      · cases h
      · next u hval =>
        split at h
        · cases h
        · next hclaimed =>
          split at h
          · cases h
          · next loaded hgate =>
            split at h
            · cases h
            · next u2 hcp =>
              refine ⟨hnd, by simpa using hpaused, ?_, by omega, loaded, hgate, ?_, h⟩
              · cases u
                exact hval
              · cases u2
                exact hcp

theorem claim_eq_afterProof {H : List ℕ → List ℕ} {dist : MerkleDistributor}
    {ud : UserDetails} {rts : ℤ} {rr : Option Bool} {ts : ℤ} {args : ClaimArgs}
    {loaded : Option Bool}
    (hnd : ¬ rts + REFUND_TIME_LIMIT < i64ofU64 (u64ofI64 ts))
    (hpause : dist.paused = false)
    (hval : validate dist.vesting = .ok ())
    (hcl : ud.claimed_amount < args.amount)
    (hgate : refundGate dist.refund_deadline_ts rr (u64ofI64 ts) = .ok loaded)
    (hcp : check_proof H args.original_wallet args.amount dist.merkle_root
      args.merkle_proof = .ok ()) :
    claim H dist ud rts rr ts args =
      claimAfterProof dist.vesting ud (u64ofI64 ts) args.amount rr := by
  unfold claim
  rw [if_neg hnd, hpause]
  simp only [Bool.false_eq_true, if_false, hval, hgate, hcp]
  rw [if_neg (not_not_intro hcl)]

theorem specFoldPath_eq_proofFold (H : List ℕ → List ℕ) :
    ∀ (proof : List (List ℕ)) (leaf : List ℕ),
      specFoldPath H leaf proof = proofFold H leaf proof := by
  intro proof
  induction proof with
  | nil => intro leaf; rfl
  | cons sib rest ih =>
    intro leaf
    show specFoldPath H (specSortedHash H leaf sib) rest = _
    rw [ih]
    rfl

/-! ### Claim theorems -/

/-- C2: for every recipient identity, amount, sibling-hash path and root,
`check_proof` computes the leaf as the hash of the identity bytes concatenated
with the amount as 8 big-endian bytes, folds the path left to right hashing
the lexicographically smaller of (running hash, sibling) first, succeeds iff
the final hash equals the root, and fails with `InvalidProof` otherwise; it is
a pure function of its inputs, hence deterministic and side-effect free. -/
theorem c2_check_proof_matches_spec (H : List ℕ → List ℕ) (wallet : List ℕ)
    (amount : ℕ) (root : List ℕ) (proof : List (List ℕ)) :
    check_proof H wallet amount root proof =
      (if merkleVerifySpec H wallet amount root proof then .ok ()
       else .error (.code .InvalidProof)) ∧
    (check_proof H wallet amount root proof = .ok () ↔
      specFoldPath H (H (wallet ++ u64BeBytes amount)) proof = root) := by
  have he : specFoldPath H (H (wallet ++ u64BeBytes amount)) proof =
      proofFold H (H (wallet ++ u64BeBytes amount)) proof :=
    specFoldPath_eq_proofFold H proof _
  by_cases hr : proofFold H (H (wallet ++ u64BeBytes amount)) proof = root
  · exact ⟨by simp [check_proof, merkleVerifySpec, he, hr],
      by simp [check_proof, he, hr]⟩
  · exact ⟨by simp [check_proof, merkleVerifySpec, he, hr],
      by simp [check_proof, he, hr]⟩

/-- C3: `validate` succeeds iff the schedule is non-empty, every period has
`times > 0` and `interval_sec > 0`, every period's `start_ts` strictly exceeds
the previous period's computed end (with no `u64` overflow), and the total
percentage lies in `[99·10^9, 100·10^9]`; on violation it returns one of
`EmptySchedule`, `EmptyPeriod`, `InvalidIntervalDuration`,
`InvalidScheduleOrder`, `IntegerOverflow`,
`PercentageDoesntCoverAllTokens`. -/
theorem c3_validate_characterization (s : List Period) :
    (validate s = .ok () ↔ validSchedule s) ∧
    ∀ e, validate s = .error e →
      e = .code .EmptySchedule ∨ e = .code .EmptyPeriod ∨
        e = .code .InvalidIntervalDuration ∨ e = .code .InvalidScheduleOrder ∨
        e = .code .IntegerOverflow ∨ e = .code .PercentageDoesntCoverAllTokens :=
  ⟨validate_ok_iff, fun _ h => validate_error_cases h⟩

theorem c3_witness :
    validSchedule schedC1 ∧
    ((.code .EmptySchedule : Abort) = .code .EmptySchedule ∨
      (.code .EmptySchedule : Abort) = .code .EmptyPeriod ∨
      (.code .EmptySchedule : Abort) = .code .InvalidIntervalDuration ∨
      (.code .EmptySchedule : Abort) = .code .InvalidScheduleOrder ∨
      (.code .EmptySchedule : Abort) = .code .IntegerOverflow ∨
      (.code .EmptySchedule : Abort) = .code .PercentageDoesntCoverAllTokens) :=
  ⟨(c3_validate_characterization schedC1).1.mp (by decide),
   (c3_validate_characterization []).2 (.code .EmptySchedule) (by decide)⟩

/-- C10: an `Update` or `Remove` change whose index is at least the schedule
length makes `apply_change` abort with an out-of-bounds panic (never an
`ErrorCode`), and both schedule-update entry points, which apply changes
without bounds checks, propagate that panic. -/
theorem c10_out_of_bounds_change_panics (s : List Period) (index : ℕ)
    (period : Period) (now : ℕ) (h : s.length ≤ index) :
    apply_change s (.update index period) = .error .panic ∧
    apply_change s (.remove index) = .error .panic ∧
    (∀ e, apply_change s (.update index period) ≠ .error (.code e)) ∧
    (∀ e, apply_change s (.remove index) ≠ .error (.code e)) ∧
    (has_started s now = false →
      update_schedule s now [.update index period] = .error .panic) ∧
    update_schedule2 s [.update index period] = .error .panic := by
  have hu : apply_change s (.update index period) = .error .panic := by
    simp only [apply_change]
    rw [if_neg (by omega)]
  have hrm : apply_change s (.remove index) = .error .panic := by
    simp only [apply_change]
    rw [if_neg (by omega)]
  have happ : applyChanges s [Change.update index period] = .error .panic := by
    unfold applyChanges
    simp only [hu]
  refine ⟨hu, hrm, ?_, ?_, ?_, ?_⟩
  · intro e he
    rw [hu] at he
    cases Except.error.inj he
  · intro e he
    rw [hrm] at he
    cases Except.error.inj he
  · intro hns
    unfold update_schedule
    rw [hns]
    simp only [Bool.false_eq_true, if_false, happ]
  · unfold update_schedule2
    exact happ

theorem c10_witness :
    apply_change schedC1 (.update 5 ⟨0, 0, 0, 0, false⟩) = .error .panic ∧
    apply_change schedC1 (.remove 5) = .error .panic ∧
    (∀ e, apply_change schedC1 (.update 5 ⟨0, 0, 0, 0, false⟩) ≠ .error (.code e)) ∧
    (∀ e, apply_change schedC1 (.remove 5) ≠ .error (.code e)) ∧
    (has_started schedC1 0 = false →
      update_schedule schedC1 0 [.update 5 ⟨0, 0, 0, 0, false⟩] = .error .panic) ∧
    update_schedule2 schedC1 [.update 5 ⟨0, 0, 0, 0, false⟩] = .error .panic :=
  c10_out_of_bounds_change_panics schedC1 5 ⟨0, 0, 0, 0, false⟩ 0 (by decide)

/-- C6: the claim states that every schedule-mutation entry point rejects
edits once vesting has begun and re-validates before committing.
`update_schedule` does; the second entry point `update_schedule2` does
neither: on the already-started §8 schedule it commits a removal producing an
empty (invalid) schedule, while `update_schedule` on the same input rejects
with `VestingAlreadyStarted`.  This exhibits the divergence at a concrete
input. -/
theorem c6_update_schedule2_unguarded :
    has_started schedC1 1500 = true ∧
    update_schedule2 schedC1 [.remove 0] = .ok [] ∧
    validate [] = .error (.code .EmptySchedule) ∧
    update_schedule schedC1 1500 [.remove 0] = .error (.code .VestingAlreadyStarted) := by
  decide

/-- C7: the claim (and spec §4.4 step 9) says a successful claim made while an
active refund request exists deactivates the stored request.  The source does
contain the deactivation — `refund_request.active = false` — but it mutates a
local `Account::try_from` copy of the raw `refund_request` `AccountInfo` that
is moved into the `if let` and dropped without ever being serialized back
(unlike `cancel_refund_request`, whose typed mutable account field does
persist), so the stored `RefundRequest` keeps `active = true`.  Evaluating the
code at the failing input: with a refund deadline configured (and also
without one), a successful claim made with an active refund request leaves the
stored request active. -/
theorem c7_claim_leaves_refund_request_active :
    claim Hzero ⟨rootZ, false, some (10 ^ 9), schedC1⟩ ⟨0, 0⟩ 0 (some true) 1500
        argsC1 =
      .ok ⟨500, 0, ⟨1500, 500⟩, some true, true⟩ ∧
    claim Hzero ⟨rootZ, false, none, schedC1⟩ ⟨0, 0⟩ 0 (some true) 1500 argsC1 =
      .ok ⟨500, 0, ⟨1500, 500⟩, some true, true⟩ := by
  decide

/-- C8: every successful claim increases the ledger's `claimed_amount` by
exactly the transferred amount plus the airdropped amount, both additions
checked against `u64` overflow, and sets `last_claimed_at_ts` to `now`;
`claimed_amount` strictly increases on a successful claim, and the
wallet-migration copy preserves the ledger verbatim. -/
theorem c8_ledger_update (H : List ℕ → List ℕ) (dist : MerkleDistributor)
    (ud : UserDetails) (rts : ℤ) (rr : Option Bool) (ts : ℤ) (args : ClaimArgs)
    (r : ClaimResult) (h : claim H dist ud rts rr ts args = .ok r) :
    r.user_details.claimed_amount = ud.claimed_amount + r.amount + r.amount_to_add ∧
    ud.claimed_amount + r.amount < U64LIM ∧
    ud.claimed_amount + r.amount + r.amount_to_add < U64LIM ∧
    r.user_details.last_claimed_at_ts = u64ofI64 ts ∧
    ud.claimed_amount < r.user_details.claimed_amount ∧
    ∀ ud2, change_wallet ud2 = ud2 := by
  obtain ⟨-, -, -, -, loaded, -, -, hap⟩ := claim_ok_inv h
  obtain ⟨c, a, amount, amountToAdd, -, -, -, hnz, h1, h2, hr⟩ :=
    claimAfterProof_ok_inv hap
  subst hr
  exact ⟨rfl, h1, h2, rfl, by simp; omega, fun ud2 => rfl⟩

theorem c8_witness :
    (⟨500, 0, ⟨1500, 500⟩, none, true⟩ : ClaimResult).user_details.claimed_amount =
      (⟨0, 0⟩ : UserDetails).claimed_amount + 500 + 0 ∧
    (⟨0, 0⟩ : UserDetails).claimed_amount + 500 < U64LIM ∧
    (⟨0, 0⟩ : UserDetails).claimed_amount + 500 + 0 < U64LIM ∧
    (⟨500, 0, ⟨1500, 500⟩, none, true⟩ : ClaimResult).user_details.last_claimed_at_ts =
      u64ofI64 1500 ∧
    (⟨0, 0⟩ : UserDetails).claimed_amount <
      (⟨500, 0, ⟨1500, 500⟩, none, true⟩ : ClaimResult).user_details.claimed_amount ∧
    ∀ ud2, change_wallet ud2 = ud2 :=
  c8_ledger_update Hzero ⟨rootZ, false, none, schedC1⟩ ⟨0, 0⟩ 0 none 1500 argsC1
    ⟨500, 0, ⟨1500, 500⟩, none, true⟩ (by decide)

/-- C9: every claim call fails with `DeadlineExpiredForRefund` exactly when
the `RefundClaimRequest` account's `time_stamp + 3600` lies strictly before
`now` — this is the first gate, checked before pause, schedule-validity,
already-claimed, proof and unlock checks — and every successful claim closes
the `RefundClaimRequest` account. -/
theorem c9_refund_claim_window_gate (H : List ℕ → List ℕ)
    (dist : MerkleDistributor) (ud : UserDetails) (rts : ℤ) (rr : Option Bool)
    (ts : ℤ) (args : ClaimArgs) :
    (claim H dist ud rts rr ts args = .error (.code .DeadlineExpiredForRefund) ↔
      rts + REFUND_TIME_LIMIT < i64ofU64 (u64ofI64 ts)) ∧
    ∀ r, claim H dist ud rts rr ts args = .ok r →
      r.refund_claim_request_closed = true := by
  constructor
  · constructor
    · intro h
      by_contra hn
      unfold claim at h
      rw [if_neg hn] at h
      split at h
      · cases Abort.code.inj (Except.error.inj h)
      · split at h
        · next e heq =>
          cases h
          rcases validate_error_cases heq with h' | h' | h' | h' | h' | h' <;>
            cases Abort.code.inj h'
        · split at h
          · cases Abort.code.inj (Except.error.inj h)
          · split at h
            · next e heq =>
              cases h
              cases Abort.code.inj (refundGate_error heq)
            · split at h
              · next e heq =>
                cases h
                cases Abort.code.inj (check_proof_error heq)
              · rcases claimAfterProof_error_cases h with h' | h' | h' | h'
                · cases Abort.code.inj h'
                · cases h'
                · cases Abort.code.inj h'
                · cases Abort.code.inj h'
    · intro hc
      unfold claim
      rw [if_pos hc]
  · intro r h
    obtain ⟨-, -, -, -, loaded, -, -, hap⟩ := claim_ok_inv h
    obtain ⟨c, a, amount, amountToAdd, -, -, -, -, -, -, hr⟩ :=
      claimAfterProof_ok_inv hap
    subst hr
    rfl

theorem c9_witness :
    claim Hzero ⟨rootZ, false, none, schedC1⟩ ⟨0, 0⟩ (-3601) none 0 argsC1 =
      .error (.code .DeadlineExpiredForRefund) ∧
    (⟨500, 0, ⟨1500, 500⟩, none, true⟩ : ClaimResult).refund_claim_request_closed =
      true :=
  ⟨(c9_refund_claim_window_gate Hzero ⟨rootZ, false, none, schedC1⟩ ⟨0, 0⟩ (-3601)
      none 0 argsC1).1.mpr (by decide),
   (c9_refund_claim_window_gate Hzero ⟨rootZ, false, none, schedC1⟩ ⟨0, 0⟩ 0 none
      1500 argsC1).2 ⟨500, 0, ⟨1500, 500⟩, none, true⟩ (by decide)⟩

/-- C1: on the schedule `{percentage = 100·10^9, start_ts = 1000,
interval_sec = 100, times = 10}` with a proven entitlement of 1000 tokens and
a fresh ledger, a claim at `now = 1500` pays exactly `ceil(1000 × 0.5) = 500`;
a second claim at the same `now` fails with `NothingToClaim` (so the ledger
is unchanged by atomicity); a subsequent claim at `now = 2000` pays the
remaining 500. -/
theorem c1_scenario (H : List ℕ → List ℕ) (wallet root : List ℕ)
    (proof : List (List ℕ))
    (hcp : check_proof H wallet 1000 root proof = .ok ()) :
    claim H ⟨root, false, none, schedC1⟩ ⟨0, 0⟩ 0 none 1500 ⟨1000, proof, wallet⟩ =
      .ok ⟨500, 0, ⟨1500, 500⟩, none, true⟩ ∧
    claim H ⟨root, false, none, schedC1⟩ ⟨1500, 500⟩ 0 none 1500 ⟨1000, proof, wallet⟩ =
      .error (.code .NothingToClaim) ∧
    claim H ⟨root, false, none, schedC1⟩ ⟨1500, 500⟩ 0 none 2000 ⟨1000, proof, wallet⟩ =
      .ok ⟨500, 0, ⟨2000, 1000⟩, none, true⟩ := by
  refine ⟨?_, ?_, ?_⟩
  · rw [claim_eq_afterProof (by decide) rfl
      (show validate schedC1 = .ok () by decide)
      (show (0 : ℕ) < 1000 by decide)
      (show refundGate (none : Option ℕ) none (u64ofI64 1500) = .ok none by decide)
      hcp]
    show claimAfterProof schedC1 ⟨0, 0⟩ (u64ofI64 1500) 1000 none = _
    decide
  · rw [claim_eq_afterProof (by decide) rfl
      (show validate schedC1 = .ok () by decide)
      (show (500 : ℕ) < 1000 by decide)
      (show refundGate (none : Option ℕ) none (u64ofI64 1500) = .ok none by decide)
      hcp]
    show claimAfterProof schedC1 ⟨1500, 500⟩ (u64ofI64 1500) 1000 none = _
    decide
  · rw [claim_eq_afterProof (by decide) rfl
      (show validate schedC1 = .ok () by decide)
      (show (500 : ℕ) < 1000 by decide)
      (show refundGate (none : Option ℕ) none (u64ofI64 2000) = .ok none by decide)
      hcp]
    show claimAfterProof schedC1 ⟨1500, 500⟩ (u64ofI64 2000) 1000 none = _
    decide

theorem i64ofU64_small {n : ℕ} (h : n < 2 ^ 63) : i64ofU64 n = n := by
  unfold i64ofU64 U64LIM
  rw [Nat.mod_eq_of_lt (by omega)]
  rw [if_pos h]
  omega

theorem Frac.toQ_zero : Frac.zero.toQ = 0 := by
  simp [Frac.toQ, Frac.zero]

theorem Frac.toQ_ofNat (n : ℕ) : (Frac.ofNat n).toQ = n := by
  simp [Frac.toQ, Frac.ofNat]

theorem Frac.toQ_mul (x y : Frac) : (x.mul y).toQ = x.toQ * y.toQ := by
  unfold Frac.toQ Frac.mul
  push_cast
  rw [div_mul_div_comm]

theorem Frac.toQ_add (x y : Frac) (hx : (x.den : ℚ) ≠ 0) (hy : (y.den : ℚ) ≠ 0) :
    (x.add y).toQ = x.toQ + y.toQ := by
  unfold Frac.toQ Frac.add
  push_cast
  rw [div_add_div _ _ hx hy]
  congr 1
  ring

theorem Frac.toQ_divNat (x : Frac) (n : ℕ) : (x.divNat n).toQ = x.toQ / n := by
  unfold Frac.toQ Frac.divNat
  push_cast
  rw [div_div]

theorem Frac.toQ_mulNat (x : Frac) (n : ℕ) : (x.mulNat n).toQ = x.toQ * n := by
  unfold Frac.toQ Frac.mulNat
  push_cast
  rw [div_mul_eq_mul_div]

theorem Frac.ceil_toQ (x : Frac) : x.ceil = Int.ceil x.toQ := by
  unfold Frac.ceil Frac.toQ
  rw [show (x.num : ℚ) / (x.den : ℚ) = -((((-x.num : ℤ) : ℚ)) / (x.den : ℚ)) by
    push_cast
    ring]
  rw [Int.ceil_neg, Rat.floor_intCast_div_natCast]

theorem pct_toQ {p : Period} (h : p.token_percentage < 2 ^ 63) :
    p.token_percentage_as_decimal.toQ = (p.token_percentage : ℚ) / 10 ^ 11 := by
  unfold Period.token_percentage_as_decimal Frac.toQ
  rw [i64ofU64_small h]
  push_cast
  norm_num

theorem chainOk_mem {s : List Period} :
    ∀ {last : ℕ}, chainOk last s → ∀ p ∈ s,
      0 < p.times ∧ 0 < p.interval_sec ∧
        p.times * p.interval_sec + p.start_ts < U64LIM := by
  induction s with
  | nil =>
    intro last _ p hp
    cases hp
  | cons q rest ih =>
    intro last hc p hp
    obtain ⟨h1, h2, h3, h4, h5⟩ := hc
    rcases List.mem_cons.mp hp with rfl | hp'
    · exact ⟨h1, h2, h4⟩
    · exact ih h5 p hp'

theorem mem_le_totalPct {s : List Period} : ∀ p ∈ s, p.token_percentage ≤ totalPct s := by
  induction s with
  | nil =>
    intro p hp
    cases hp
  | cons q rest ih =>
    intro p hp
    have : totalPct (q :: rest) = q.token_percentage + totalPct rest := by
      simp [totalPct]
    rcases List.mem_cons.mp hp with rfl | hp'
    · omega
    · have := ih p hp'
      omega

theorem validate_good {s : List Period} (h : validate s = .ok ()) :
    ∀ p ∈ s, goodPeriod p := by
  obtain ⟨-, hc, -, hhi⟩ := validate_ok_iff.mp h
  intro p hp
  obtain ⟨h1, h2, h3⟩ := chainOk_mem hc p hp
  have h4 := mem_le_totalPct p hp
  exact ⟨h1, h2, h3, by omega⟩

theorem claimQ_nonneg (s : List Period) : ∀ (now last : ℕ), 0 ≤ claimQ s now last := by
  induction s with
  | nil =>
    intro now last
    exact le_refl 0
  | cons p rest ih =>
    intro now last
    unfold claimQ
    split_ifs with h1 h2 h3
    · exact le_refl 0
    · exact ih now last
    · exact ih now last
    · exact add_nonneg (by positivity) (ih now last)

theorem addQ_nonneg (s : List Period) : ∀ (now last : ℕ), 0 ≤ addQ s now last := by
  induction s with
  | nil =>
    intro now last
    exact le_refl 0
  | cons p rest ih =>
    intro now last
    unfold addQ
    split_ifs with h1 h2 h3
    · exact le_refl 0
    · exact ih now last
    · exact add_nonneg (by positivity) (ih now last)
    · exact ih now last

theorem intervalsPassed_mono (p : Period) (last : ℕ) {n₁ n₂ : ℕ} (h : n₁ ≤ n₂) :
    intervalsPassed p n₁ last ≤ intervalsPassed p n₂ last := by
  unfold intervalsPassed
  exact min_le_min (Nat.div_le_div_right (Nat.sub_le_sub_right h _)) le_rfl

theorem claimQ_mono (s : List Period) (last : ℕ) {n₁ n₂ : ℕ} (h : n₁ ≤ n₂) :
    claimQ s n₁ last ≤ claimQ s n₂ last := by
  induction s with
  | nil => exact le_refl 0
  | cons p rest ih =>
    unfold claimQ
    by_cases h1 : n₁ < p.start_ts
    · rw [if_pos h1]
      by_cases h2 : n₂ < p.start_ts
      · rw [if_pos h2]
      · rw [if_neg h2]
        split_ifs with h3 h4
        · exact claimQ_nonneg rest n₂ last
        · exact claimQ_nonneg rest n₂ last
        · exact add_nonneg (by positivity) (claimQ_nonneg rest n₂ last)
    · rw [if_neg h1, if_neg (by omega : ¬ n₂ < p.start_ts)]
      split_ifs with h3 h4
      · exact ih
      · exact ih
      · have hm : (intervalsPassed p n₁ last : ℚ) ≤ (intervalsPassed p n₂ last : ℚ) := by
          exact_mod_cast intervalsPassed_mono p last h
        have hc : (0 : ℚ) ≤ (p.token_percentage : ℚ) / 10 ^ 11 / (p.times : ℚ) := by
          positivity
        exact add_le_add (mul_le_mul_of_nonneg_left hm hc) ih

theorem intervalsPassed_self (p : Period) (now : ℕ) : intervalsPassed p now now = 0 := by
  unfold intervalsPassed
  rcases Nat.eq_zero_or_pos p.interval_sec with h | h
  · rw [h]
    simp
  · have hlt : now - max p.start_ts (now - now % p.interval_sec) < p.interval_sec := by
      have h1 : now - now % p.interval_sec ≤ max p.start_ts (now - now % p.interval_sec) :=
        le_max_right _ _
      have h2 : now % p.interval_sec < p.interval_sec := Nat.mod_lt _ h
      have h3 : now % p.interval_sec ≤ now := Nat.mod_le _ _
      omega
    rw [Nat.div_eq_of_lt hlt]
    simp

theorem claimQ_self (s : List Period) (now : ℕ) : claimQ s now now = 0 := by
  induction s with
  | nil => rfl
  | cons p rest ih =>
    unfold claimQ
    split_ifs with h1 h2 h3
    · rfl
    · exact ih
    · exact ih
    · rw [intervalsPassed_self]
      simp [ih]

theorem addQ_self_le (s : List Period) {now last : ℕ} (h : last ≤ now) :
    addQ s now now ≤ addQ s now last := by
  induction s with
  | nil => exact le_refl 0
  | cons p rest ih =>
    unfold addQ
    by_cases h1 : now < p.start_ts
    · rw [if_pos h1, if_pos h1]
    · rw [if_neg h1, if_neg h1]
      by_cases h2 : p.times * p.interval_sec + p.start_ts ≤ last
      · rw [if_pos h2, if_pos (by omega)]
        exact ih
      · rw [if_neg h2]
        by_cases h2' : p.times * p.interval_sec + p.start_ts ≤ now
        · rw [if_pos h2']
          split_ifs with h3
          · have h4 : (0 : ℚ) ≤ (p.token_percentage : ℚ) / 10 ^ 11 := by positivity
            have h5 := ih
            linarith
          · exact ih
        · rw [if_neg h2']
          split_ifs with h3
          · exact add_le_add_left ih _
          · exact ih

theorem bps_good {s : List Period} (hg : ∀ p ∈ s, goodPeriod p) :
    ∀ (now : ℕ) (ud : UserDetails), ud.last_claimed_at_ts ≤ now →
      ∃ c a, bps_available_to_claim now ud s = .ok (c, a) ∧
        0 < c.den ∧ 0 < a.den ∧ 0 ≤ c.num ∧ 0 ≤ a.num ∧
        c.toQ = claimQ s now ud.last_claimed_at_ts ∧
        a.toQ = addQ s now ud.last_claimed_at_ts := by
  induction s with
  | nil =>
    intro now ud hle
    exact ⟨Frac.zero, Frac.zero, rfl, Nat.one_pos, Nat.one_pos, le_refl 0, le_refl 0,
      by rw [Frac.toQ_zero]; rfl, by rw [Frac.toQ_zero]; rfl⟩
  | cons p rest ih =>
    intro now ud hle
    have hgp : goodPeriod p := hg p (by simp)
    have hgr : ∀ q ∈ rest, goodPeriod q := fun q hq => hg q (by simp [hq])
    obtain ⟨h1, h2, h3, h4⟩ := hgp
    have hi64 : i64ofU64 p.token_percentage = (p.token_percentage : ℤ) :=
      i64ofU64_small h4
    unfold bps_available_to_claim claimQ addQ
    by_cases hnow : now < p.start_ts
    · rw [if_pos hnow, if_pos hnow, if_pos hnow]
      exact ⟨Frac.zero, Frac.zero, rfl, Nat.one_pos, Nat.one_pos, le_refl 0, le_refl 0,
        Frac.toQ_zero, Frac.toQ_zero⟩
    · rw [if_neg hnow, if_neg hnow, if_neg hnow]
      have hend : p.end_ts = .ok (p.times * p.interval_sec + p.start_ts) :=
        end_ts_ok_iff.mpr ⟨h3, rfl⟩
      simp only [hend]
      by_cases hskip : p.times * p.interval_sec + p.start_ts ≤ ud.last_claimed_at_ts
      · rw [if_pos hskip, if_pos hskip, if_pos hskip]
        exact ih hgr now ud hle
      · rw [if_neg hskip, if_neg hskip, if_neg hskip]
        by_cases hair : p.airdropped = true
        · rw [if_pos hair, if_pos hair, if_pos hair]
          obtain ⟨c, a, hbps, hcd, had, hcn, han, hcq, haq⟩ := ih hgr now ud hle
          simp only [hbps]
          refine ⟨c, a.add p.token_percentage_as_decimal, rfl, hcd, ?_, hcn, ?_, hcq, ?_⟩
          · show 0 < a.den * 10 ^ 11
            positivity
          · show 0 ≤ a.num * ((10 : ℕ) ^ 11 : ℤ) + i64ofU64 p.token_percentage * (a.den : ℤ)
            rw [hi64]
            have hx : (0 : ℤ) ≤ a.num * ((10 : ℕ) ^ 11 : ℤ) := by positivity
            have hy : (0 : ℤ) ≤ (p.token_percentage : ℤ) * (a.den : ℤ) := by positivity
            omega
          · rw [Frac.toQ_add a _ (by exact_mod_cast had.ne') (by norm_num [Period.token_percentage_as_decimal])]
            rw [haq, pct_toQ h4]
            ring
        · rw [if_neg hair, if_neg hair, if_neg hair]
          rw [if_neg (by omega : ¬ p.interval_sec = 0)]
          have halign : ud.last_claimed_at_ts - ud.last_claimed_at_ts % p.interval_sec ≤ now :=
            le_trans (Nat.sub_le _ _) hle
          have hmax : max p.start_ts
              (ud.last_claimed_at_ts - ud.last_claimed_at_ts % p.interval_sec) ≤ now :=
            max_le (by omega) halign
          rw [if_neg (not_lt.mpr hmax), if_neg (by omega : ¬ p.times = 0)]
          obtain ⟨c, a, hbps, hcd, had, hcn, han, hcq, haq⟩ := ih hgr now ud hle
          simp only [hbps]
          refine ⟨c.add ((p.token_percentage_as_decimal.divNat p.times).mulNat
            (min ((now - max p.start_ts
              (ud.last_claimed_at_ts - ud.last_claimed_at_ts % p.interval_sec)) /
                p.interval_sec) p.times)), a, rfl, ?_, had, ?_, han, ?_, haq⟩
          · show 0 < c.den * (10 ^ 11 * p.times)
            positivity
          · show 0 ≤ c.num * ((10 ^ 11 * p.times : ℕ) : ℤ) +
              i64ofU64 p.token_percentage *
                (min ((now - max p.start_ts
                  (ud.last_claimed_at_ts - ud.last_claimed_at_ts % p.interval_sec)) /
                    p.interval_sec) p.times : ℕ) * (c.den : ℤ)
            rw [hi64]
            have hx : (0 : ℤ) ≤ c.num * ((10 ^ 11 * p.times : ℕ) : ℤ) := by positivity
            have hy : (0 : ℤ) ≤ (p.token_percentage : ℤ) *
                (min ((now - max p.start_ts
                  (ud.last_claimed_at_ts - ud.last_claimed_at_ts % p.interval_sec)) /
                    p.interval_sec) p.times : ℕ) * (c.den : ℤ) := by positivity
            omega
          · rw [Frac.toQ_add c _ (by exact_mod_cast hcd.ne') ?hden]
            case hden =>
              show (((10 : ℕ) ^ 11 * p.times : ℕ) : ℚ) ≠ 0
              push_cast
              positivity
            rw [Frac.toQ_mulNat, Frac.toQ_divNat, pct_toQ h4, hcq]
            rw [show intervalsPassed p now ud.last_claimed_at_ts =
              min ((now - max p.start_ts
                (ud.last_claimed_at_ts - ud.last_claimed_at_ts % p.interval_sec)) /
                  p.interval_sec) p.times from rfl]
            ring

theorem Frac.toQ_nonneg (x : Frac) (h : 0 ≤ x.num) : 0 ≤ x.toQ :=
  div_nonneg (by exact_mod_cast h) (by positivity)

theorem ceilToU64_ok_iff {x : Frac} {v : ℕ} :
    ceilToU64 x = .ok v ↔
      0 ≤ x.ceil ∧ x.ceil < (U64LIM : ℤ) ∧ v = x.ceil.toNat := by
  unfold ceilToU64
  split
  · next hc =>
    simp only [Except.ok.injEq]
    constructor
    · rintro rfl
      exact ⟨hc.1, hc.2, rfl⟩
    · rintro ⟨-, -, rfl⟩
      rfl
  · next hc =>
    constructor
    · rintro ⟨⟩
    · rintro ⟨h1, h2, -⟩
      exact absurd ⟨h1, h2⟩ hc

theorem has_stopped_good {s : List Period} (hg : ∀ p ∈ s, goodPeriod p) (now : ℕ) :
    ∃ b, has_stopped s now = .ok b := by
  induction s with
  | nil => exact ⟨true, rfl⟩
  | cons p rest ih =>
    have h3 := (hg p (by simp)).2.2.1
    have hend : p.end_ts = .ok (p.times * p.interval_sec + p.start_ts) :=
      end_ts_ok_iff.mpr ⟨h3, rfl⟩
    obtain ⟨b, hb⟩ := ih (fun q hq => hg q (by simp [hq]))
    unfold has_stopped
    simp only [hend]
    split_ifs
    · exact ⟨b, hb⟩
    · exact ⟨b, hb⟩
    · exact ⟨false, rfl⟩

theorem claim_already {H : List ℕ → List ℕ} {dist : MerkleDistributor}
    {ud : UserDetails} {rts : ℤ} {rr : Option Bool} {ts : ℤ} {args : ClaimArgs}
    (hnd : ¬ rts + REFUND_TIME_LIMIT < i64ofU64 (u64ofI64 ts))
    (hpause : dist.paused = false)
    (hval : validate dist.vesting = .ok ())
    (hcl : ¬ ud.claimed_amount < args.amount) :
    claim H dist ud rts rr ts args = .error (.code .AlreadyClaimed) := by
  unfold claim
  rw [if_neg hnd, hpause]
  simp only [Bool.false_eq_true, if_false, hval]
  rw [if_pos hcl]

/-- C4 (amended): for a fixed valid schedule and fixed ledger, the claimable
fraction computed by `bps_available_to_claim` is non-decreasing in `now`; and
after a successful claim at time `now`, a repeated claim at the same `now`
(against the committed post-state) fails — with `AlreadyClaimed` when the full
proven entitlement has been paid, otherwise with `ScheduleStopped` when the
schedule has stopped, otherwise with `NothingToClaim` — and, failing, commits
no state. -/
theorem c4_unlock_monotone_and_repeat_claims :
    (∀ (s : List Period) (ud : UserDetails) (n₁ n₂ : ℕ),
      validate s = .ok () → ud.last_claimed_at_ts ≤ n₁ → n₁ ≤ n₂ →
      ∃ c₁ a₁ c₂ a₂,
        bps_available_to_claim n₁ ud s = .ok (c₁, a₁) ∧
        bps_available_to_claim n₂ ud s = .ok (c₂, a₂) ∧
        c₁.toQ ≤ c₂.toQ) ∧
    (∀ (H : List ℕ → List ℕ) (dist : MerkleDistributor) (ud : UserDetails)
      (rts : ℤ) (rr : Option Bool) (ts : ℤ) (args : ClaimArgs) (r : ClaimResult),
      ud.last_claimed_at_ts ≤ u64ofI64 ts →
      claim H dist ud rts rr ts args = .ok r →
      claim H dist r.user_details rts r.refund_request_active ts args =
          .error (.code .AlreadyClaimed) ∨
        claim H dist r.user_details rts r.refund_request_active ts args =
          .error (.code .NothingToClaim) ∨
        claim H dist r.user_details rts r.refund_request_active ts args =
          .error (.code .ScheduleStopped)) := by
  constructor
  · intro s ud n₁ n₂ hval h1 h2
    have hg := validate_good hval
    obtain ⟨c₁, a₁, hb₁, -, -, -, -, hcq₁, -⟩ := bps_good hg n₁ ud h1
    obtain ⟨c₂, a₂, hb₂, -, -, -, -, hcq₂, -⟩ := bps_good hg n₂ ud (le_trans h1 h2)
    refine ⟨c₁, a₁, c₂, a₂, hb₁, hb₂, ?_⟩
    rw [hcq₁, hcq₂]
    exact claimQ_mono s _ h2
  · intro H dist ud rts rr ts args r hlast h
    obtain ⟨hnd, hpa, hval, hcl, loaded, hgate, hcp, hap⟩ := claim_ok_inv h
    obtain ⟨c, a, amount, amountToAdd, hbps, hcC, hcA, hnz, hov1, hov2, hr⟩ :=
      claimAfterProof_ok_inv hap
    subst hr
    by_cases hcl2 : ud.claimed_amount + amount + amountToAdd < args.amount
    · have hg := validate_good hval
      obtain ⟨c₂, a₂, hbps₂, hcd₂, had₂, hcn₂, han₂, hcq₂, haq₂⟩ :=
        bps_good hg (u64ofI64 ts)
          ⟨u64ofI64 ts, ud.claimed_amount + amount + amountToAdd⟩ (le_refl _)
      obtain ⟨ca, aa, hbps1, -, -, -, -, -, haq1⟩ := bps_good hg (u64ofI64 ts) ud hlast
      rw [hbps] at hbps1
      cases Except.ok.inj hbps1
      have hc0 : c₂.toQ = 0 := by
        rw [hcq₂]
        exact claimQ_self _ _
      have hceilC₂ : ceilToU64 ((Frac.ofNat args.amount).mul c₂) = .ok 0 := by
        have hceil0 : ((Frac.ofNat args.amount).mul c₂).ceil = 0 := by
          rw [Frac.ceil_toQ, Frac.toQ_mul, hc0, mul_zero, Int.ceil_zero]
        unfold ceilToU64
        rw [hceil0]
        rw [if_pos ⟨le_refl 0, by unfold U64LIM; positivity⟩]
        rfl
      have hale : a₂.toQ ≤ a.toQ := by
        rw [haq₂, haq1]
        exact addQ_self_le _ hlast
      obtain ⟨hb1, hb2, -⟩ := ceilToU64_ok_iff.mp hcA
      have hle2 : ((Frac.ofNat args.amount).mul a₂).ceil ≤
          ((Frac.ofNat args.amount).mul a).ceil := by
        rw [Frac.ceil_toQ, Frac.ceil_toQ]
        apply Int.ceil_le_ceil
        rw [Frac.toQ_mul, Frac.toQ_mul, Frac.toQ_ofNat]
        exact mul_le_mul_of_nonneg_left hale (by positivity)
      have hge2 : 0 ≤ ((Frac.ofNat args.amount).mul a₂).ceil := by
        rw [Frac.ceil_toQ]
        apply Int.ceil_nonneg
        rw [Frac.toQ_mul, Frac.toQ_ofNat]
        exact mul_nonneg (by positivity) (Frac.toQ_nonneg _ han₂)
      have hceilA₂ : ceilToU64 ((Frac.ofNat args.amount).mul a₂) =
          .ok ((Frac.ofNat args.amount).mul a₂).ceil.toNat := by
        unfold ceilToU64
        rw [if_pos ⟨hge2, by omega⟩]
      obtain ⟨b, hstop⟩ := has_stopped_good hg (u64ofI64 ts)
      rw [claim_eq_afterProof hnd hpa hval hcl2 hgate hcp]
      unfold claimAfterProof
      simp only [hbps₂, hceilC₂, hceilA₂]
      rw [if_pos trivial]
      cases b
      · simp only [hstop]
        right
        left
        trivial
      · simp only [hstop]
        right
        right
        trivial
    · left
      exact claim_already hnd hpa hval hcl2

/-- C4 counterexample: on the valid schedule `schedStop` (whose airdropped
second period still covers `now = 2050`), a successful claim pays 990 of the
1000 entitlement; the repeated claim at the same `now` computes amount `0` but
fails with `ScheduleStopped` — not `NothingToClaim`, and not `AlreadyClaimed`
(the entitlement is not fully paid) — refuting the claim's error
dichotomy. -/
theorem c4_counterexample :
    claim Hzero ⟨rootZ, false, none, schedStop⟩ ⟨0, 0⟩ 0 none 2050 argsC1 =
      .ok ⟨500, 490, ⟨2050, 990⟩, none, true⟩ ∧
    claim Hzero ⟨rootZ, false, none, schedStop⟩ ⟨2050, 990⟩ 0 none 2050 argsC1 =
      .error (.code .ScheduleStopped) ∧
    (990 : ℕ) < 1000 := by
  decide

theorem c4_witness :
    (∃ c₁ a₁ c₂ a₂,
      bps_available_to_claim 1200 (⟨0, 0⟩ : UserDetails) schedC1 = .ok (c₁, a₁) ∧
      bps_available_to_claim 1500 (⟨0, 0⟩ : UserDetails) schedC1 = .ok (c₂, a₂) ∧
      c₁.toQ ≤ c₂.toQ) ∧
    (claim Hzero ⟨rootZ, false, none, schedStop⟩ ⟨2050, 990⟩ 0 none 2050 argsC1 =
        .error (.code .AlreadyClaimed) ∨
      claim Hzero ⟨rootZ, false, none, schedStop⟩ ⟨2050, 990⟩ 0 none 2050 argsC1 =
        .error (.code .NothingToClaim) ∨
      claim Hzero ⟨rootZ, false, none, schedStop⟩ ⟨2050, 990⟩ 0 none 2050 argsC1 =
        .error (.code .ScheduleStopped)) :=
  ⟨c4_unlock_monotone_and_repeat_claims.1 schedC1 ⟨0, 0⟩ 1200 1500 (by decide)
      (by decide) (by decide),
   c4_unlock_monotone_and_repeat_claims.2 Hzero ⟨rootZ, false, none, schedStop⟩
      ⟨0, 0⟩ 0 none 2050 argsC1 ⟨500, 490, ⟨2050, 990⟩, none, true⟩ (by decide)
      (by decide)⟩

theorem c1_witness :
    claim Hzero ⟨rootZ, false, none, schedC1⟩ ⟨0, 0⟩ 0 none 1500 ⟨1000, [], rootZ⟩ =
      .ok ⟨500, 0, ⟨1500, 500⟩, none, true⟩ ∧
    claim Hzero ⟨rootZ, false, none, schedC1⟩ ⟨1500, 500⟩ 0 none 1500
        ⟨1000, [], rootZ⟩ =
      .error (.code .NothingToClaim) ∧
    claim Hzero ⟨rootZ, false, none, schedC1⟩ ⟨1500, 500⟩ 0 none 2000
        ⟨1000, [], rootZ⟩ =
      .ok ⟨500, 0, ⟨2000, 1000⟩, none, true⟩ :=
  c1_scenario Hzero rootZ rootZ [] (by decide)

theorem isCurB_eq_true {now : ℕ} {p : Period} :
    isCurB now p = true ↔
      p.start_ts ≤ now ∧ now ≤ p.times * p.interval_sec + p.start_ts := by
  simp [isCurB]

theorem isCurB_eq_false {now : ℕ} {p : Period} :
    isCurB now p = false ↔
      ¬ (p.start_ts ≤ now ∧ now ≤ p.times * p.interval_sec + p.start_ts) := by
  rw [← isCurB_eq_true]
  cases isCurB now p <;> simp

theorem stopGo_ok {now : ℕ} : ∀ {s : List Period} {seen : Bool} {s' : List Period},
    stopGo now seen s = .ok s' →
    List.Forall₂ (stopRel now) s s' ∧
    (seen = true → s.countP (isCurB now) = 0) ∧
    s.countP (isCurB now) ≤ 1 := by
  intro s
  induction s with
  | nil =>
    intro seen s' h
    cases Except.ok.inj h
    exact ⟨List.Forall₂.nil, fun _ => rfl, by simp⟩
  | cons p rest ih =>
    intro seen s' h
    unfold stopGo at h
    split at h
    · cases h
    · next pend hend =>
      obtain ⟨hfit, rfl⟩ := end_ts_ok_iff.mp hend
      split at h
      · next hpast =>
        split at h
        · cases h
        · next rest' hrest =>
          cases Except.ok.inj h
          obtain ⟨hf, -, hc1⟩ := ih hrest
          have hcur : isCurB now p = false := isCurB_eq_false.mpr (by omega)
          refine ⟨List.Forall₂.cons ⟨_, end_ts_ok_iff.mpr ⟨hfit, rfl⟩,
            Or.inl ⟨hpast, rfl⟩⟩ hf, ?_, ?_⟩
          · intro hseen
            obtain ⟨-, hc0, -⟩ := ih hrest
            simp [List.countP_cons, hcur, hc0 hseen]
          · simp [List.countP_cons, hcur]
            omega
      · next hpast =>
        split at h
        · next hfut =>
          split at h
          · cases h
          · next rest' hrest =>
            cases Except.ok.inj h
            obtain ⟨hf, -, hc1⟩ := ih hrest
            have hcur : isCurB now p = false := isCurB_eq_false.mpr (by omega)
            refine ⟨List.Forall₂.cons ⟨_, end_ts_ok_iff.mpr ⟨hfit, rfl⟩,
              Or.inr (Or.inl ⟨hpast, hfut, rfl⟩)⟩ hf, ?_, ?_⟩
            · intro hseen
              obtain ⟨-, hc0, -⟩ := ih hrest
              simp [List.countP_cons, hcur, hc0 hseen]
            · simp [List.countP_cons, hcur]
              omega
        · next hfut =>
          split at h
          · cases h
          · next hseen =>
            split at h
            · cases h
            · next hps =>
              split at h
              · cases h
              · next hdur =>
                split at h
                · cases h
                · next hod =>
                  split at h
                  · cases h
                  · next hfitP =>
                    split at h
                    · cases h
                    · next hple =>
                      split at h
                      · cases h
                      · next rest' hrest =>
                        cases Except.ok.inj h
                        obtain ⟨hf, hc0, -⟩ := ih hrest
                        have hcur : isCurB now p = true :=
                          isCurB_eq_true.mpr ⟨by omega, by omega⟩
                        have hrest0 : rest.countP (isCurB now) = 0 := hc0 rfl
                        refine ⟨List.Forall₂.cons ⟨_, end_ts_ok_iff.mpr ⟨hfit, rfl⟩,
                          Or.inr (Or.inr ⟨hpast, hfut, rfl, rfl, not_not.mp hdur,
                            not_not.mp hple, rfl, rfl⟩)⟩ hf, ?_, ?_⟩
                        · intro hseen2
                          exact absurd hseen2 hseen
                        · simp [List.countP_cons, hcur, hrest0]

theorem stopGo_invalid {now : ℕ} : ∀ {s : List Period} {seen : Bool},
    (∀ p ∈ s, p.times * p.interval_sec + p.start_ts < U64LIM ∧
      p.token_percentage < U64LIM ∧
      (isCurB now p = true → 0 < p.times ∧ 0 < p.interval_sec)) →
    ((seen = true ∧ 1 ≤ s.countP (isCurB now)) ∨
     (seen = false ∧ 2 ≤ s.countP (isCurB now))) →
    stopGo now seen s = .error (.code .InvalidSchedule) := by
  intro s
  induction s with
  | nil =>
    intro seen _ hcnt
    rcases hcnt with ⟨-, hc⟩ | ⟨-, hc⟩ <;> simp at hc
  | cons p rest ih =>
    intro seen hg hcnt
    obtain ⟨hfit, htp, hcur⟩ := hg p (by simp)
    have hgr : ∀ q ∈ rest, q.times * q.interval_sec + q.start_ts < U64LIM ∧
        q.token_percentage < U64LIM ∧
        (isCurB now q = true → 0 < q.times ∧ 0 < q.interval_sec) :=
      fun q hq => hg q (by simp [hq])
    have hend : p.end_ts = .ok (p.times * p.interval_sec + p.start_ts) :=
      end_ts_ok_iff.mpr ⟨hfit, rfl⟩
    unfold stopGo
    simp only [hend]
    by_cases hpast : p.times * p.interval_sec + p.start_ts < now
    · rw [if_pos hpast]
      have hcurF : isCurB now p = false := isCurB_eq_false.mpr (by omega)
      have hcc : List.countP (isCurB now) (p :: rest) =
          List.countP (isCurB now) rest := by
        rw [List.countP_cons, hcurF]
        simp
      have hcnt' : (seen = true ∧ 1 ≤ rest.countP (isCurB now)) ∨
          (seen = false ∧ 2 ≤ rest.countP (isCurB now)) := by
        rw [hcc] at hcnt
        rcases hcnt with ⟨h1, h2⟩ | ⟨h1, h2⟩
        · exact Or.inl ⟨h1, h2⟩
        · exact Or.inr ⟨h1, by omega⟩
      simp only [ih hgr hcnt']
    · rw [if_neg hpast]
      by_cases hfut : now < p.start_ts
      · rw [if_pos hfut]
        have hcurF : isCurB now p = false := isCurB_eq_false.mpr (by omega)
        have hcc : List.countP (isCurB now) (p :: rest) =
            List.countP (isCurB now) rest := by
          rw [List.countP_cons, hcurF]
          simp
        have hcnt' : (seen = true ∧ 1 ≤ rest.countP (isCurB now)) ∨
            (seen = false ∧ 2 ≤ rest.countP (isCurB now)) := by
          rw [hcc] at hcnt
          rcases hcnt with ⟨h1, h2⟩ | ⟨h1, h2⟩
          · exact Or.inl ⟨h1, h2⟩
          · exact Or.inr ⟨h1, by omega⟩
        simp only [ih hgr hcnt']
      · rw [if_neg hfut]
        have hcurT : isCurB now p = true := isCurB_eq_true.mpr ⟨by omega, by omega⟩
        cases seen with
        | true => rw [if_pos rfl]
        | false =>
          rw [if_neg (by simp)]
          rcases hcnt with ⟨h1, -⟩ | ⟨-, h2⟩
          · cases h1
          · have h2' : 1 ≤ rest.countP (isCurB now) := by
              have hcc : List.countP (isCurB now) (p :: rest) =
                  List.countP (isCurB now) rest + 1 := by
                rw [List.countP_cons, hcurT]
                simp
              rw [hcc] at h2
              omega
            obtain ⟨h0t, h0i⟩ := hcur hcurT
            have hmulpos : 0 < p.times * p.interval_sec := Nat.mul_pos h0t h0i
            rw [if_neg (by omega :
              ¬ p.times * p.interval_sec + p.start_ts < p.start_ts)]
            rw [if_neg (by omega : ¬ ¬ now - p.start_ts ≤
              p.times * p.interval_sec + p.start_ts - p.start_ts)]
            rw [if_neg (by omega :
              ¬ p.times * p.interval_sec + p.start_ts - p.start_ts = 0)]
            have hnp : p.token_percentage * (now - p.start_ts) /
                (p.times * p.interval_sec + p.start_ts - p.start_ts) ≤
                  p.token_percentage := by
              have hd : p.times * p.interval_sec + p.start_ts - p.start_ts =
                  p.times * p.interval_sec := by omega
              rw [hd]
              calc p.token_percentage * (now - p.start_ts) /
                    (p.times * p.interval_sec) ≤
                  p.token_percentage * (p.times * p.interval_sec) /
                    (p.times * p.interval_sec) :=
                    Nat.div_le_div_right (Nat.mul_le_mul_left _ (by omega))
                _ = p.token_percentage := Nat.mul_div_cancel _ hmulpos
            rw [if_neg (by
              simp only [not_not]
              exact lt_of_le_of_lt hnp htp)]
            rw [if_neg (not_not_intro hnp)]
            simp only [ih hgr (Or.inl ⟨rfl, h2'⟩)]

/-- C5 (amended): a successful Policy B early stop (`stop_vesting2`) leaves
every fully past period unchanged, marks every period with `start_ts > now` as
airdropped, and rescales at most one current period — current meaning
`start_ts ≤ now ≤ end`, the comparison the code performs — to `times = 1` and
`interval_sec = now − start_ts`, with the rescaled duration never exceeding
the original duration and the rescaled `token_percentage` never exceeding the
original; on success at most one current period exists.  Provided every
period's end and `token_percentage` fit in `u64` and every current period has
positive duration, the call fails with `InvalidSchedule` whenever more than
one current period exists.  (The `PeriodDurationIncreased` and
`TokenPercentageIncreased` guards bound the rescale exactly as the claim
states.) -/
theorem c5_stop_vesting2_rescale :
    (∀ (s : List Period) (now : ℕ) (s' : List Period),
      stop_vesting2 s now = .ok s' →
      List.Forall₂ (stopRel now) s s' ∧ s.countP (isCurB now) ≤ 1) ∧
    (∀ (s : List Period) (now : ℕ),
      (∀ p ∈ s, p.times * p.interval_sec + p.start_ts < U64LIM ∧
        p.token_percentage < U64LIM ∧
        (isCurB now p = true → 0 < p.times ∧ 0 < p.interval_sec)) →
      2 ≤ s.countP (isCurB now) →
      stop_vesting2 s now = .error (.code .InvalidSchedule)) := by
  constructor
  · intro s now s' h
    obtain ⟨hf, -, hc⟩ := stopGo_ok h
    exact ⟨hf, hc⟩
  · intro s now hg hc
    exact stopGo_invalid hg (Or.inr ⟨rfl, hc⟩)

/-- C5 counterexample, refuting two aspects of the claim as stated.
First: on `schedEndEq` (one period ending exactly at `now = 2000`, so *no*
period is current in the claim's strict sense `start_ts ≤ now < end`),
`stop_vesting2` succeeds yet rescales that period (`times` drops from 2 to 1,
`interval_sec` grows from 500 to 1000), so a successful run modifies a period
the claim says is not current.  Second: on `schedTwoCur`, two periods *are*
current in the claim's strict sense, yet the call panics on the zero-duration
first period (rust_decimal division by zero) instead of failing with
`InvalidSchedule`. -/
theorem c5_counterexample :
    stop_vesting2 schedEndEq 2000 = .ok [⟨100 * 10 ^ 9, 1000, 1000, 1, false⟩] ∧
    (∀ p ∈ schedEndEq,
      ¬ (p.start_ts ≤ 2000 ∧ 2000 < p.times * p.interval_sec + p.start_ts)) ∧
    ([⟨100 * 10 ^ 9, 1000, 1000, 1, false⟩] : List Period) ≠ schedEndEq ∧
    stop_vesting2 schedTwoCur 10 = .error .panic ∧
    ((schedTwoCur.get ⟨1, by decide⟩).start_ts ≤ 10 ∧
      10 < (schedTwoCur.get ⟨1, by decide⟩).times *
        (schedTwoCur.get ⟨1, by decide⟩).interval_sec +
          (schedTwoCur.get ⟨1, by decide⟩).start_ts) ∧
    ((schedTwoCur.get ⟨2, by decide⟩).start_ts ≤ 10 ∧
      10 < (schedTwoCur.get ⟨2, by decide⟩).times *
        (schedTwoCur.get ⟨2, by decide⟩).interval_sec +
          (schedTwoCur.get ⟨2, by decide⟩).start_ts) := by
  decide

theorem c5_witness :
    (List.Forall₂ (stopRel 500) schedC1 [⟨100 * 10 ^ 9, 1000, 100, 10, true⟩] ∧
      schedC1.countP (isCurB 500) ≤ 1) ∧
    stop_vesting2 schedTwoCurOk 12 = .error (.code .InvalidSchedule) :=
  ⟨c5_stop_vesting2_rescale.1 schedC1 500 [⟨100 * 10 ^ 9, 1000, 100, 10, true⟩]
      (by decide),
   c5_stop_vesting2_rescale.2 schedTwoCurOk 12 (by decide) (by decide)⟩

end Claiming
